import Mathlib

/-!
Verification of the svgToDataURI encoder and history store.

The definitions below are a shallow embedding of the TypeScript source
(`processInput`, `saveHistory`, `getHistory` and the export listener).
Strings are modelled as `List Char` (sequences of Unicode scalar values);
the JavaScript library functions that the source relies on
(`String.prototype.trim`, the two regex replacements, `String.prototype.match`
with the `href` pattern, `encodeURIComponent`, `decodeURIComponent`,
`JSON.parse`) are embedded by functions that follow their specified
behaviour on the inputs the program feeds them.
-/

namespace SvgFavicon

/-- Convert a string literal to the `List Char` model used throughout. -/
def str (s : String) : List Char := s.data

/-- The set matched by the JavaScript regular-expression class `\s`
(also the set removed by `String.prototype.trim`). -/
def jsWs (c : Char) : Bool :=
  let n := c.toNat
  n == 0x9 || n == 0xA || n == 0xB || n == 0xC || n == 0xD || n == 0x20 ||
  n == 0xA0 || n == 0x1680 || (0x2000 ≤ n && n ≤ 0x200A) || n == 0x2028 ||
  n == 0x2029 || n == 0x202F || n == 0x205F || n == 0x3000 || n == 0xFEFF

/-- Embedding of `String.prototype.trim`: drop whitespace from both ends. -/
def jsTrim (l : List Char) : List Char :=
  ((l.dropWhile jsWs).reverse.dropWhile jsWs).reverse

/-- The global replacement `.replace(/\r?\n|\r/g, "")`: every `\r\n` pair,
lone `\n` and lone `\r` is deleted. -/
def removeLineBreaks : List Char → List Char
  | [] => []
  | '\r' :: '\n' :: rest => removeLineBreaks rest
  | '\n' :: rest => removeLineBreaks rest
  | '\r' :: rest => removeLineBreaks rest
  | c :: rest => c :: removeLineBreaks rest

/-- Worker for `.replace(/\s+/g, " ")`: the flag records whether we are
inside a whitespace run whose leading space was already emitted. -/
def collapseWsAux : Bool → List Char → List Char
  | _, [] => []
  | inRun, c :: rest =>
    if jsWs c then
      (if inRun then [] else [' ']) ++ collapseWsAux true rest
    else c :: collapseWsAux false rest

/-- The global replacement `.replace(/\s+/g, " ")`: each maximal whitespace
run becomes a single space. -/
def collapseWs (l : List Char) : List Char := collapseWsAux false l

/-- Embedding of `String.prototype.startsWith` on the list model. -/
def startsWithL : List Char → List Char → Bool
  | [], _ => true
  | _ :: _, [] => false
  | p :: ps, c :: cs => p == c && startsWithL ps cs

/-- The literal `<link` tested by `raw.startsWith("<link")`. -/
def linkHead : List Char := str "<link"

/-- The literal `data:image/svg+xml,` put before every produced URI. -/
def dataHead : List Char := str "data:image/svg+xml,"

/-- The literal `href="` that the regex `/href="([^"]*)"/` must match. -/
def hrefKey : List Char := str "href=\""

/-- Capture `([^"]*)"`: the characters before the next double quote;
`none` when no closing quote exists (the regex then fails to match here). -/
def captureQuote : List Char → Option (List Char)
  | [] => none
  | c :: rest => if c = '"' then some [] else (captureQuote rest).map (c :: ·)

/-- Embedding of `raw.match(/href="([^"]*)"/)`, returning the first capture group:
scan left to right for the literal `href="` followed by a closing quote. -/
def matchHref : List Char → Option (List Char)
  | [] => none
  | c :: rest =>
    if startsWithL hrefKey (c :: rest) then
      match captureQuote ((c :: rest).drop hrefKey.length) with
      | some v => some v
      | none => matchHref rest
    else matchHref rest

/-- Embedding of `String.prototype.replace` with a string pattern: only the first
occurrence is replaced (here: deleted). -/
def replaceFirst (pat : List Char) : List Char → List Char
  | [] => []
  | c :: rest =>
    if startsWithL pat (c :: rest) then (c :: rest).drop pat.length
    else c :: replaceFirst pat rest

/-- The apostrophe character `'` (code point 39). -/
def apos : Char := Char.ofNat 39

/-- The characters `encodeURIComponent` leaves unescaped:
`A-Z a-z 0-9 - _ . ! ~ * ' ( )`. -/
def unreserved (c : Char) : Bool :=
  let n := c.toNat
  (65 ≤ n && n ≤ 90) || (97 ≤ n && n ≤ 122) || (48 ≤ n && n ≤ 57) ||
  n == 45 || n == 95 || n == 46 || n == 33 || n == 126 || n == 42 ||
  n == 39 || n == 40 || n == 41

/-- Uppercase hexadecimal digit, as emitted by `encodeURIComponent`. -/
def hexDigitU (n : Nat) : Char :=
  if n < 10 then Char.ofNat (48 + n) else Char.ofNat (55 + n)

/-- One percent escape `%XX` for the byte `b`. -/
def hex2 (b : Nat) : List Char := ['%', hexDigitU (b / 16), hexDigitU (b % 16)]

/-- UTF-8 byte sequence of the code point `n`. -/
def utf8Bytes (n : Nat) : List Nat :=
  if n < 0x80 then [n]
  else if n < 0x800 then [0xC0 + n / 64, 0x80 + n % 64]
  else if n < 0x10000 then
    [0xE0 + n / 4096, 0x80 + n / 64 % 64, 0x80 + n % 64]
  else
    [0xF0 + n / 0x40000, 0x80 + n / 4096 % 64, 0x80 + n / 64 % 64, 0x80 + n % 64]

/-- Embedding of `encodeURIComponent` at one character. -/
def encodeChar (c : Char) : List Char :=
  if unreserved c then [c] else ((utf8Bytes c.toNat).map hex2).flatten

/-- Embedding of `encodeURIComponent` over a whole string. -/
def encodeURIComp (l : List Char) : List Char := (l.map encodeChar).flatten

/-- A global single-character replacement such as `.replace(/'/g, "%27")`. -/
def replAll (c : Char) (sub : List Char) (l : List Char) : List Char :=
  (l.map fun x => if x = c then sub else [x]).flatten

/-- The full encoding used by the source:
`encodeURIComponent(s).replace(/'/g, "%27").replace(/"/g, "%22")`. -/
def encodeFull (l : List Char) : List Char :=
  replAll '"' (str "%22") (replAll apos (str "%27") (encodeURIComp l))

/-- Value of one hexadecimal digit as accepted by `decodeURIComponent`. -/
def hexVal (c : Char) : Option Nat :=
  let n := c.toNat
  if 48 ≤ n ∧ n ≤ 57 then some (n - 48)
  else if 65 ≤ n ∧ n ≤ 70 then some (n - 55)
  else if 97 ≤ n ∧ n ≤ 102 then some (n - 87)
  else none

/-- Combine two hexadecimal digits into one byte. -/
def hexPair (h1 h2 : Char) : Option Nat :=
  match hexVal h1, hexVal h2 with
  | some a, some b => some (16 * a + b)
  | _, _ => none

/-- UTF-8 continuation-byte test `0x80 ≤ b ≤ 0xBF`. -/
def isCont (b : Nat) : Bool := 0x80 ≤ b && b ≤ 0xBF

/-- Prepend a character to a successful decode. -/
def consSome (c : Char) : Option (List Char) → Option (List Char) :=
  Option.map (c :: ·)

/-- Read one `%XX` escape, returning the byte and the remaining input. -/
def readHexByte : List Char → Option (Nat × List Char)
  | '%' :: h1 :: h2 :: rest =>
    (match hexPair h1 h2 with
    | some b => some (b, rest)
    | none => none)
  | _ => none

/-- Decode one maximal escape sequence at the start of `l` (which begins
with `%`), as ECMA-262 `Decode` does: the first byte determines how many
continuation escapes must follow, and overlong forms, surrogates and
out-of-range values are rejected. Returns the decoded character and the
remaining input. -/
def decodeSeq (l : List Char) : Option (Char × List Char) :=
  match readHexByte l with
  | none => none
  | some (b0, r0) =>
    if b0 < 0x80 then some (Char.ofNat b0, r0)
    else if b0 < 0xC0 then none
    else if b0 < 0xE0 then
      match readHexByte r0 with
      | none => none
      | some (b1, r1) =>
        if isCont b1 then
          if 0x80 ≤ (b0 - 0xC0) * 64 + (b1 - 0x80) then
            some (Char.ofNat ((b0 - 0xC0) * 64 + (b1 - 0x80)), r1)
          else none
        else none
    else if b0 < 0xF0 then
      match readHexByte r0 with
      | none => none
      | some (b1, r1) =>
        match readHexByte r1 with
        | none => none
        | some (b2, r2) =>
          if isCont b1 && isCont b2 then
            if 0x800 ≤ (b0 - 0xE0) * 4096 + (b1 - 0x80) * 64 + (b2 - 0x80) ∧
                ¬(0xD800 ≤ (b0 - 0xE0) * 4096 + (b1 - 0x80) * 64 + (b2 - 0x80) ∧
                  (b0 - 0xE0) * 4096 + (b1 - 0x80) * 64 + (b2 - 0x80) ≤ 0xDFFF) then
              some (Char.ofNat ((b0 - 0xE0) * 4096 + (b1 - 0x80) * 64 + (b2 - 0x80)), r2)
            else none
          else none
    else if b0 < 0xF8 then
      match readHexByte r0 with
      | none => none
      | some (b1, r1) =>
        match readHexByte r1 with
        | none => none
        | some (b2, r2) =>
          match readHexByte r2 with
          | none => none
          | some (b3, r3) =>
            if isCont b1 && isCont b2 && isCont b3 then
              if 0x10000 ≤ (b0 - 0xF0) * 0x40000 + (b1 - 0x80) * 4096 +
                    (b2 - 0x80) * 64 + (b3 - 0x80) ∧
                  (b0 - 0xF0) * 0x40000 + (b1 - 0x80) * 4096 +
                    (b2 - 0x80) * 64 + (b3 - 0x80) ≤ 0x10FFFF then
                some (Char.ofNat ((b0 - 0xF0) * 0x40000 + (b1 - 0x80) * 4096 +
                  (b2 - 0x80) * 64 + (b3 - 0x80)), r3)
              else none
            else none
    else none

/-- Worker for `decodeURIComponent`.  The fuel only bounds the number of
steps; every step consumes at least one character, so fuel equal to the
input length never runs out. -/
def decodeAux : Nat → List Char → Option (List Char)
  | _, [] => some []
  | fuel + 1, '%' :: rest =>
    (match decodeSeq ('%' :: rest) with
    | some (ch, r) => consSome ch (decodeAux fuel r)
    | none => none)
  | fuel + 1, c :: rest => consSome c (decodeAux fuel rest)
  | 0, _ :: _ => none

/-- Embedding of `decodeURIComponent`: percent escapes are decoded as strict UTF-8; any
failure is a thrown `URIError`, modelled by `none`. Characters outside
escapes pass through unchanged. -/
def decodeList (l : List Char) : Option (List Char) := decodeAux l.length l

/-- The three strings produced by a successful `processInput` run. -/
structure EncodeOut where
  canonicalSource : List Char
  dataUri : List Char
  tag : List Char
deriving DecidableEq

/-- Outcome of `processInput`: `empty` is the clear-output path taken for
blank input; `ok` carries the produced strings. -/
inductive ProcResult where
  | empty : ProcResult
  | ok : EncodeOut → ProcResult
deriving DecidableEq

instance : DecidableEq (Except Unit ProcResult) := fun a b =>
  match a, b with
  | .ok x, .ok y =>
    match decEq x y with
    | isTrue h => isTrue (by rw [h])
    | isFalse h => isFalse (by intro hh; cases hh; exact h rfl)
  | .ok _, .error _ => isFalse (by intro h; cases h)
  | .error _, .ok _ => isFalse (by intro h; cases h)
  | .error x, .error y => isTrue (by cases x; cases y; rfl)

/-- The minimize/encode/emit tail of `processInput` (lines 79-87). -/
def buildOut (raw : List Char) : EncodeOut :=
  let cleanSvg := collapseWs (removeLineBreaks raw)
  let dataUri := dataHead ++ encodeFull cleanSvg
  { canonicalSource := cleanSvg
    dataUri := dataUri
    tag := str "<link rel=\"icon\" type=\"image/svg+xml\" href=\"" ++ dataUri ++ str "\" />" }

/-- The `<link` unwrapping step (lines 66-69): use the `href` capture when
the regex matches, the original text otherwise. -/
def linkStep (raw : List Char) : List Char :=
  if startsWithL linkHead raw then
    match matchHref raw with
    | some v => v
    | none => raw
  else raw

/-- The data-URI branch and encode tail of `processInput` (lines 72-87):
`decodeURIComponent` may throw, which the surrounding code never catches. -/
def processRaw (raw1 : List Char) : Except Unit ProcResult :=
  if startsWithL dataHead raw1 then
    match decodeList (replaceFirst dataHead raw1) with
    | some decoded => .ok (.ok (buildOut decoded))
    | none => .error ()
  else .ok (.ok (buildOut raw1))

/-- Embedding of `processInput` (lines 56-100 of the source): trim, clear on blank,
unwrap a pasted `<link>` tag, unwrap an existing data URI, then minimize
and encode. -/
def processInput (input : List Char) : Except Unit ProcResult :=
  let raw := jsTrim input
  if raw = [] then .ok .empty
  else processRaw (linkStep raw)

/-- Project the canonical source out of a `processInput` outcome. -/
def canonOf : Except Unit ProcResult → Option (List Char)
  | .ok (.ok o) => some o.canonicalSource
  | _ => none

/-- One stored history record (interface `HistoryItem` of the source). -/
structure HistoryItem where
  id : Nat
  svg : List Char
  code : List Char
  date : List Char
deriving DecidableEq

/-- Embedding of `saveHistory` (lines 143-165 of the source), with the ambient inputs
made explicit: `now` is `Date.now()`, `dateStr` is
`new Date().toLocaleString()`, `svgVal` and `outVal` are the two text
areas, and `hist` is what `getHistory()` returned.  The function returns
the history as persisted afterwards (unchanged on the early returns). -/
def saveHistory (now : Nat) (dateStr svgVal outVal : List Char)
    (hist : List HistoryItem) : List HistoryItem :=
  let currentSvg := jsTrim svgVal
  if currentSvg = [] then hist
  else if hist.head?.map (·.svg) = some currentSvg then hist
  else
    let hist2 := { id := now, svg := currentSvg, code := jsTrim outVal,
                   date := dateStr } :: hist
    if hist2.length > 50 then hist2.dropLast else hist2

/-- The inputs of one `saveHistory` invocation. -/
structure SaveCall where
  now : Nat
  date : List Char
  svg : List Char
  out : List Char
deriving DecidableEq

/-- Run a session of consecutive `saveHistory` calls. -/
def runSaves (calls : List SaveCall) (hist : List HistoryItem) : List HistoryItem :=
  calls.foldl (fun h c => saveHistory c.now c.date c.svg c.out h) hist

/-- JSON values as `JSON.parse` materialises them; numbers keep their raw
lexeme and strings their UTF-16 code units, neither of which any claim
inspects further. -/
inductive Json where
  | null : Json
  | bool : Bool → Json
  | num : List Char → Json
  | strV : List Nat → Json
  | arr : List Json → Json
  | obj : List (List Nat × Json) → Json

/-- JSON insignificant whitespace. -/
def jsonWs (c : Char) : Bool :=
  c == ' ' || c == '\t' || c == '\n' || c == '\r'

/-- Skip insignificant whitespace. -/
def skipJsonWs (l : List Char) : List Char := l.dropWhile jsonWs

/-- Single-character JSON string escapes. -/
def escChar : Char → Option Nat
  | '"' => some 34
  | '\\' => some 92
  | '/' => some 47
  | 'b' => some 8
  | 'f' => some 12
  | 'n' => some 10
  | 'r' => some 13
  | 't' => some 9
  | _ => none

/-- Body of a JSON string after the opening quote: code units and the
remainder after the closing quote. -/
def parseStr : List Char → Option (List Nat × List Char)
  | [] => none
  | '"' :: rest => some ([], rest)
  | '\\' :: 'u' :: h1 :: h2 :: h3 :: h4 :: rest =>
    (match hexVal h1, hexVal h2, hexVal h3, hexVal h4 with
    | some a, some b, some c, some d =>
      (parseStr rest).map fun p => ((((a * 16 + b) * 16 + c) * 16 + d) :: p.1, p.2)
    | _, _, _, _ => none)
  | '\\' :: e :: rest =>
    (match escChar e with
    | some n => (parseStr rest).map fun p => (n :: p.1, p.2)
    | none => none)
  | c :: rest =>
    if c.toNat < 0x20 then none
    else (parseStr rest).map fun p => (c.toNat :: p.1, p.2)

/-- Leading digit run of a lexeme. -/
def spanDigits (l : List Char) : List Char × List Char :=
  (l.takeWhile Char.isDigit, l.dropWhile Char.isDigit)

/-- JSON integer part: `0` or a nonzero digit followed by digits. -/
def parseIntPart : List Char → Option (List Char × List Char)
  | '0' :: r => some (['0'], r)
  | c :: r =>
    if c.isDigit then
      let p := spanDigits r
      some (c :: p.1, p.2)
    else none
  | [] => none

/-- Optional JSON fraction part (a bare trailing dot is an error). -/
def parseFracPart : List Char → Option (List Char × List Char)
  | '.' :: r =>
    let p := spanDigits r
    if p.1 = [] then none else some ('.' :: p.1, p.2)
  | l => some ([], l)

/-- Optional JSON exponent part. -/
def parseExpPart : List Char → Option (List Char × List Char)
  | 'e' :: '+' :: r =>
    let p := spanDigits r
    if p.1 = [] then none else some ('e' :: '+' :: p.1, p.2)
  | 'e' :: '-' :: r =>
    let p := spanDigits r
    if p.1 = [] then none else some ('e' :: '-' :: p.1, p.2)
  | 'e' :: r =>
    let p := spanDigits r
    if p.1 = [] then none else some ('e' :: p.1, p.2)
  | 'E' :: '+' :: r =>
    let p := spanDigits r
    if p.1 = [] then none else some ('E' :: '+' :: p.1, p.2)
  | 'E' :: '-' :: r =>
    let p := spanDigits r
    if p.1 = [] then none else some ('E' :: '-' :: p.1, p.2)
  | 'E' :: r =>
    let p := spanDigits r
    if p.1 = [] then none else some ('E' :: p.1, p.2)
  | l => some ([], l)

/-- A JSON number lexeme. -/
def parseNum (l : List Char) : Option (List Char × List Char) :=
  let sl : List Char × List Char :=
    match l with
    | '-' :: r => (['-'], r)
    | _ => ([], l)
  match parseIntPart sl.2 with
  | none => none
  | some (ip, r1) =>
    match parseFracPart r1 with
    | none => none
    | some (fp, r2) =>
      match parseExpPart r2 with
      | none => none
      | some (ep, r3) => some (sl.1 ++ ip ++ fp ++ ep, r3)

/-- Comma-separated array elements up to the closing bracket, given a
parser `pv` for one value. -/
def parseElems (pv : List Char → Option (Json × List Char)) :
    Nat → List Char → Option (List Json × List Char)
  | 0, _ => none
  | fuel + 1, l =>
    match pv l with
    | none => none
    | some (j, r) =>
      match skipJsonWs r with
      | ',' :: r2 => (parseElems pv fuel r2).map fun p => (j :: p.1, p.2)
      | ']' :: r2 => some ([j], r2)
      | _ => none

/-- Comma-separated object members up to the closing brace. -/
def parseFields (pv : List Char → Option (Json × List Char)) :
    Nat → List Char → Option (List (List Nat × Json) × List Char)
  | 0, _ => none
  | fuel + 1, l =>
    match skipJsonWs l with
    | '"' :: r =>
      (match parseStr r with
      | some (key, r1) =>
        (match skipJsonWs r1 with
        | ':' :: r2 =>
          (match pv r2 with
          | some (j, r3) =>
            (match skipJsonWs r3 with
            | ',' :: r4 => (parseFields pv fuel r4).map fun p => ((key, j) :: p.1, p.2)
            | '}' :: r4 => some ([(key, j)], r4)
            | _ => none)
          | none => none)
        | _ => none)
      | none => none)
    | _ => none

/-- One JSON value (fuel-indexed recursive-descent parser). -/
def parseVal : Nat → List Char → Option (Json × List Char)
  | 0, _ => none
  | fuel + 1, l =>
    match skipJsonWs l with
    | '"' :: rest => (parseStr rest).map fun p => (Json.strV p.1, p.2)
    | '[' :: rest =>
      (match skipJsonWs rest with
      | ']' :: r2 => some (Json.arr [], r2)
      | _ => (parseElems (parseVal fuel) fuel rest).map fun p => (Json.arr p.1, p.2))
    | '{' :: rest =>
      (match skipJsonWs rest with
      | '}' :: r2 => some (Json.obj [], r2)
      | _ => (parseFields (parseVal fuel) fuel rest).map fun p => (Json.obj p.1, p.2))
    | 't' :: 'r' :: 'u' :: 'e' :: rest => some (Json.bool true, rest)
    | 'f' :: 'a' :: 'l' :: 's' :: 'e' :: rest => some (Json.bool false, rest)
    | 'n' :: 'u' :: 'l' :: 'l' :: rest => some (Json.null, rest)
    | rest => (parseNum rest).map fun p => (Json.num p.1, p.2)

/-- Embedding of `JSON.parse`: parse one value and require only whitespace after it;
`none` models a thrown `SyntaxError`. -/
def jsonParse (l : List Char) : Option Json :=
  match parseVal (l.length + 1) l with
  | some (j, r) => if skipJsonWs r = [] then some j else none
  | none => none

/-- The expression `localStorage.getItem(STORAGE_KEY) || "[]"`: the key may
be absent (`none`) and the empty string is falsy. -/
def rawStored : Option (List Char) → List Char
  | none => str "[]"
  | some s => if s = [] then str "[]" else s

/-- Embedding of `getHistory` (lines 167-173 of the source): parse the stored text and
turn a thrown parse error into the empty array via `try`/`catch`. -/
def getHistory (stored : Option (List Char)) : Json :=
  match jsonParse (rawStored stored) with
  | some j => j
  | none => Json.arr []

/-- The `btnExport` click listener's payload (lines 293-304 of the source):
`localStorage.getItem(STORAGE_KEY) || "[]"`, written to the file verbatim. -/
def exportData (stored : Option (List Char)) : List Char :=
  match stored with
  | none => str "[]"
  | some s => if s = [] then str "[]" else s

/-- C8: every input that is empty after trimming takes the clear-output
path of `processInput`, yielding `empty`, never an error. -/
theorem c8_empty_input :
    (∀ s : List Char, jsTrim s = [] → processInput s = .ok .empty) ∧
    processInput (str "") = .ok .empty ∧ processInput (str "   ") = .ok .empty := by
  refine ⟨fun s h => ?_, by decide, by decide⟩
  simp [processInput, h]

/-- C8 witness: the blank-input theorem applied to a concrete input. -/
theorem c8_empty_input_witness :
    processInput (str " \t ") = .ok .empty :=
  c8_empty_input.1 (str " \t ") (by decide)

/-- C6: `getHistory` is total: an absent key yields the empty array, a
stored text whose parse fails yields the empty array, and otherwise the
result is exactly the parsed value — the `try`/`catch` never lets a parse
error escape. -/
theorem c6_load_total :
    getHistory none = Json.arr [] ∧
    (∀ s : List Char, jsonParse (rawStored (some s)) = none →
      getHistory (some s) = Json.arr []) ∧
    (∀ stored : Option (List Char), getHistory stored = Json.arr [] ∨
      jsonParse (rawStored stored) = some (getHistory stored)) := by
  refine ⟨rfl, fun s h => ?_, fun stored => ?_⟩
  · simp [getHistory, h]
  · unfold getHistory
    cases jsonParse (rawStored stored) with
    | none => exact Or.inl rfl
    | some j => exact Or.inr rfl

/-- C6 witness: the corrupt-data case at a concrete unparseable string. -/
theorem c6_load_total_witness :
    getHistory (some (str "corrupt\x7b")) = Json.arr [] :=
  c6_load_total.2.1 (str "corrupt\x7b") (by rfl)

/-- C7: the export payload is byte-identical to the text `getHistory`
parses, so whenever that text parses, the parsed export equals the loaded
history exactly. -/
theorem c7_export_raw :
    ∀ stored : Option (List Char),
      exportData stored = rawStored stored ∧
      ∀ j : Json, jsonParse (exportData stored) = some j →
        getHistory stored = j := by
  intro stored
  have he : exportData stored = rawStored stored := by
    cases stored with
    | none => rfl
    | some s => rfl
  refine ⟨he, fun j hj => ?_⟩
  rw [he] at hj
  simp [getHistory, hj]

/-- C7 witness: export/load agreement at a concrete stored value. -/
theorem c7_export_raw_witness :
    getHistory (some (str "[true]")) = Json.arr [Json.bool true] :=
  (c7_export_raw (some (str "[true]"))).2 (Json.arr [Json.bool true]) (by rfl)

/-- C10 counterexample: a data URI whose remainder is the lone character
`%` makes `decodeURIComponent` throw, and `processInput` propagates the
exception instead of returning a result — the percent-decoding step is
not total. -/
theorem c10_decode_throws :
    processInput (str "data:image/svg+xml,%") = .error () := by decide

/-- C10 (amended): `processInput` fails exactly when the (possibly
link-unwrapped) trimmed input enters the data-URI branch and its remainder
is not well-formed percent-encoded UTF-8; on every other input it returns
a result or `empty` without raising. -/
theorem c10_error_characterization :
    ∀ s : List Char,
      processInput s = .error () ↔
        (jsTrim s ≠ [] ∧ startsWithL dataHead (linkStep (jsTrim s)) = true ∧
          decodeList (replaceFirst dataHead (linkStep (jsTrim s))) = none) := by
  intro s
  unfold processInput processRaw
  by_cases h0 : jsTrim s = []
  · simp [h0]
  · simp only [h0, if_false, ne_eq, not_false_eq_true, true_and, if_neg h0]
    by_cases h1 : startsWithL dataHead (linkStep (jsTrim s)) = true
    · simp only [h1, if_true, true_and]
      cases hd : decodeList (replaceFirst dataHead (linkStep (jsTrim s))) with
      | none => simp
      | some d => simp
    · simp only [if_neg h1]
      simp [h1]

/-- C10 witness: the characterization applied at a concrete erroring
input. -/
theorem c10_error_characterization_witness :
    processInput (str "data:image/svg+xml,%E0%80") = .error () :=
  (c10_error_characterization (str "data:image/svg+xml,%E0%80")).mpr
    ⟨by decide, by decide, by decide⟩

/-- C5 counterexample: a `<link>` whose `href` uses single quotes is not
unwrapped — the source regex `/href="([^"]*)"/` only matches double
quotes — so the result differs from processing the bare href value. -/
theorem c5_single_quote_not_extracted :
    processInput (str "<link rel=" ++ [apos] ++ str "icon" ++ [apos] ++
        str " href=" ++ [apos] ++ str "X" ++ [apos] ++ str " />") ≠
      processInput (str "X") := by decide

/-- C5 (amended): for trimmed input starting with `<link`, `processInput`
extracts the `href` value via a double-quoted-only attribute match and
proceeds on it; when no double-quoted `href` is present it falls through
with the original text; the double-quoted example round-trips to the bare
value. -/
theorem c5_link_unwrap :
    processInput (str "<link rel=\"icon\" href=\"X\" />") = processInput (str "X") ∧
    (∀ s : List Char, startsWithL linkHead (jsTrim s) = true →
      matchHref (jsTrim s) = none → jsTrim s ≠ [] →
        processInput s = processRaw (jsTrim s)) ∧
    (∀ s v : List Char, startsWithL linkHead (jsTrim s) = true →
      matchHref (jsTrim s) = some v → jsTrim s ≠ [] →
        processInput s = processRaw v) := by
  refine ⟨by decide, fun s hl hm h0 => ?_, fun s v hl hm h0 => ?_⟩
  · simp [processInput, h0, linkStep, hl, hm]
  · simp [processInput, h0, linkStep, hl, hm]

/-- C5 witness: both unwrap clauses applied at concrete inputs. -/
theorem c5_link_unwrap_witness :
    processInput (str "<link href=\"Y\" />") = processRaw (str "Y") ∧
    processInput (str "<link nohref />") = processRaw (str "<link nohref />") :=
  ⟨c5_link_unwrap.2.2 (str "<link href=\"Y\" />") (str "Y")
      (by decide) (by decide) (by decide),
    c5_link_unwrap.2.1 (str "<link nohref />") (by decide) (by decide) (by decide)⟩

/-- C1 counterexample: the input `"<svg>\r\n</svg>"` does not collapse to
`"<svg> </svg>"`: the line-break pass deletes `\r\n` outright (it replaces
with the empty string, not a space), so the canonical source is
`"<svg></svg>"`. -/
theorem c1_crlf_example :
    canonOf (processInput (str "<svg>\r\n</svg>")) = some (str "<svg></svg>") ∧
    str "<svg></svg>" ≠ str "<svg> </svg>" := by decide

/-- C1 (amended): for input whose trimmed form is non-empty and starts
with neither `<link` nor `data:image/svg+xml,`, the canonical source is
the trimmed input with all line breaks removed and every remaining
whitespace run collapsed to one space; in particular `"<svg>\r\n</svg>"`
becomes `"<svg></svg>"`. -/
theorem c1_canonical_source :
    (∀ s : List Char, jsTrim s ≠ [] →
      startsWithL linkHead (jsTrim s) = false →
      startsWithL dataHead (jsTrim s) = false →
      canonOf (processInput s) = some (collapseWs (removeLineBreaks (jsTrim s)))) ∧
    canonOf (processInput (str "<svg>\r\n</svg>")) = some (str "<svg></svg>") := by
  refine ⟨fun s h0 hl hd => ?_, by decide⟩
  simp [processInput, h0, linkStep, hl, processRaw, hd, buildOut, canonOf]

/-- C1 witness: the no-unwrap clause applied at a concrete input with
mixed whitespace. -/
theorem c1_canonical_source_witness :
    canonOf (processInput (str " <svg> \t\n <g/> </svg>")) =
      some (collapseWs (removeLineBreaks (jsTrim (str " <svg> \t\n <g/> </svg>")))) :=
  c1_canonical_source.1 (str " <svg> \t\n <g/> </svg>")
    (by decide) (by decide) (by decide)

/-- Suppression: `saveHistory` is a no-op when the head entry carries the incoming
trimmed svg (the duplicate-consecutive-save guard). -/
theorem saveHistory_suppressed (now : Nat) (d sv ov : List Char)
    (hist : List HistoryItem)
    (hh : hist.head?.map (·.svg) = some (jsTrim sv)) :
    saveHistory now d sv ov hist = hist := by
  simp only [saveHistory]
  by_cases h : jsTrim sv = []
  · rw [if_pos h]
  · rw [if_neg h, if_pos hh]

/-- After an inserting `saveHistory` call the head entry carries the
incoming trimmed svg. -/
theorem saveHistory_head (now : Nat) (d sv ov : List Char)
    (hist : List HistoryItem) (h : jsTrim sv ≠ [])
    (hnd : hist.head?.map (·.svg) ≠ some (jsTrim sv)) :
    (saveHistory now d sv ov hist).head?.map (·.svg) = some (jsTrim sv) := by
  simp only [saveHistory]
  rw [if_neg h, if_neg hnd]
  split
  · next hlen =>
    cases hist with
    | nil => simp at hlen
    | cons x xs => rw [List.dropLast_cons₂]; rfl
  · rfl

/-- C3: recording is suppressed when the head entry's `svg` equals the
incoming trimmed `svg`, and a second consecutive call with the same input
text never changes the history produced by the first, regardless of
timestamps and output text. -/
theorem c3_duplicate_suppression :
    (∀ (now : Nat) (d svgVal outVal : List Char) (h0 : HistoryItem)
        (rest : List HistoryItem), h0.svg = jsTrim svgVal →
      saveHistory now d svgVal outVal (h0 :: rest) = h0 :: rest) ∧
    (∀ (n1 n2 : Nat) (d1 d2 o1 o2 svgVal : List Char) (hist : List HistoryItem),
      saveHistory n2 d2 svgVal o2 (saveHistory n1 d1 svgVal o1 hist) =
        saveHistory n1 d1 svgVal o1 hist) := by
  constructor
  · intro now d svgVal outVal h0 rest hsvg
    exact saveHistory_suppressed now d svgVal outVal (h0 :: rest)
      (by simp [hsvg])
  · intro n1 n2 d1 d2 o1 o2 svgVal hist
    by_cases h : jsTrim svgVal = []
    · simp [saveHistory, h]
    · by_cases hdup : hist.head?.map (·.svg) = some (jsTrim svgVal)
      · rw [saveHistory_suppressed n1 d1 svgVal o1 hist hdup]
        exact saveHistory_suppressed n2 d2 svgVal o2 hist hdup
      · exact saveHistory_suppressed n2 d2 svgVal o2 _
          (saveHistory_head n1 d1 svgVal o1 hist h hdup)

/-- C3 witness: suppression and idempotence at concrete inputs. -/
theorem c3_duplicate_suppression_witness :
    saveHistory 7 (str "d") (str " a ") (str "t")
        [⟨3, str "a", str "c", str "d"⟩] = [⟨3, str "a", str "c", str "d"⟩] ∧
    saveHistory 9 (str "e") (str "a") (str "u")
        (saveHistory 8 (str "d") (str "a") (str "t") []) =
      saveHistory 8 (str "d") (str "a") (str "t") [] :=
  ⟨c3_duplicate_suppression.1 7 (str "d") (str " a ") (str "t")
      ⟨3, str "a", str "c", str "d"⟩ [] (by decide),
    c3_duplicate_suppression.2 8 9 (str "d") (str "e") (str "t") (str "u")
      (str "a") []⟩

/-- Unfolding `runSaves` one call at the front. -/
theorem runSaves_cons (c : SaveCall) (cs : List SaveCall) (hist : List HistoryItem) :
    runSaves (c :: cs) hist =
      runSaves cs (saveHistory c.now c.date c.svg c.out hist) := rfl

/-- Unfolding `runSaves` one call at the back. -/
theorem runSaves_concat (cs : List SaveCall) (c : SaveCall) (hist : List HistoryItem) :
    runSaves (cs ++ [c]) hist =
      saveHistory c.now c.date c.svg c.out (runSaves cs hist) := by
  simp [runSaves, List.foldl_append]

/-- One `saveHistory` call keeps a history within the 50-entry bound. -/
theorem saveHistory_length_le (now : Nat) (d sv ov : List Char)
    (hist : List HistoryItem) (h : hist.length ≤ 50) :
    (saveHistory now d sv ov hist).length ≤ 50 := by
  by_cases h1 : jsTrim sv = []
  · simpa [saveHistory, h1]
  by_cases h2 : hist.head?.map (·.svg) = some (jsTrim sv)
  · simpa [saveHistory, h1, h2]
  simp only [saveHistory]
  rw [if_neg h1, if_neg h2]
  split
  · next hlen => simpa [List.length_dropLast] using h
  · next hlen => simp only [List.length_cons] at hlen ⊢; omega

/-- Contents of a session started on the empty history: with non-blank,
pairwise-distinct trimmed svgs no call is suppressed, and the stored svgs
are the most recent 50 call svgs, newest first. -/
theorem runSaves_map_svg (calls : List SaveCall)
    (hne : ∀ c ∈ calls, jsTrim c.svg ≠ [])
    (hdist : (calls.map fun c => jsTrim c.svg).Pairwise (· ≠ ·)) :
    (runSaves calls []).map (·.svg) =
      ((calls.map fun c => jsTrim c.svg).reverse).take 50 := by
  induction calls using List.reverseRecOn with
  | nil => rfl
  | append_singleton cs c ih =>
    have hne' : ∀ c' ∈ cs, jsTrim c'.svg ≠ [] :=
      fun c' hc' => hne c' (List.mem_append_left _ hc')
    rw [List.map_append] at hdist
    obtain ⟨hP, -, hcross⟩ := List.pairwise_append.mp hdist
    have ihR := ih hne' hP
    have htrim : jsTrim c.svg ≠ [] :=
      hne c (List.mem_append_right _ (List.mem_singleton_self c))
    have hRlen : (runSaves cs []).length =
        min 50 ((cs.map fun c' => jsTrim c'.svg).reverse).length := by
      have hl := congrArg List.length ihR
      rw [List.length_map, List.length_take] at hl
      exact hl
    have hnotdup : (runSaves cs []).head?.map (·.svg) ≠ some (jsTrim c.svg) := by
      cases hR0 : runSaves cs [] with
      | nil => simp
      | cons r rs =>
        simp only [List.head?_cons, Option.map_some', ne_eq, Option.some.injEq]
        intro hcon
        have hr : r.svg ∈ (runSaves cs []).map (·.svg) := by
          rw [hR0]; exact List.mem_cons_self _ _
        rw [ihR] at hr
        have hr2 : r.svg ∈ (cs.map fun c' => jsTrim c'.svg).reverse :=
          List.mem_of_mem_take hr
        rw [List.mem_reverse] at hr2
        exact hcross _ hr2 _ (by simp) hcon
    rw [runSaves_concat]
    simp only [saveHistory]
    rw [if_neg htrim, if_neg hnotdup]
    rw [List.map_append, List.reverse_append]
    simp only [List.map_cons, List.map_nil, List.reverse_cons, List.reverse_nil,
      List.nil_append, List.cons_append]
    rw [show (50 : Nat) = 49 + 1 from rfl, List.take_succ_cons]
    split
    · next hlen =>
      simp only [List.length_cons] at hlen
      have hX : 50 ≤ ((cs.map fun c' => jsTrim c'.svg).reverse).length := by omega
      cases hR0 : runSaves cs [] with
      | nil =>
        rw [hR0] at hlen
        simp only [List.length_nil] at hlen
        exfalso; omega
      | cons r rs =>
        rw [List.dropLast_cons₂, List.map_cons]
        congr 1
        rw [List.map_dropLast, ← hR0, ihR]
        rw [List.dropLast_eq_take, List.length_take, List.take_take]
        congr 1
        omega
    · next hlen =>
      simp only [List.length_cons] at hlen
      simp only [List.map_cons, ihR]
      congr 1
      apply List.take_eq_take.mpr
      omega

/-- C4: a `saveHistory` call preserves the 50-entry bound, and a session
of 51 distinct non-blank svgs on an empty history retains exactly the
most recent 50, newest first (the first svg is evicted, the 51st is at
index 0). -/
theorem c4_capacity :
    (∀ (now : Nat) (d sv ov : List Char) (hist : List HistoryItem),
      hist.length ≤ 50 → (saveHistory now d sv ov hist).length ≤ 50) ∧
    (∀ calls : List SaveCall, calls.length = 51 →
      (∀ c ∈ calls, jsTrim c.svg ≠ []) →
      ((calls.map fun c => jsTrim c.svg).Pairwise (· ≠ ·)) →
      (runSaves calls []).length = 50 ∧
      (runSaves calls []).map (·.svg) =
        ((calls.map fun c => jsTrim c.svg).reverse).take 50) := by
  refine ⟨saveHistory_length_le, fun calls hlen hne hdist => ?_⟩
  have h := runSaves_map_svg calls hne hdist
  refine ⟨?_, h⟩
  have hl := congrArg List.length h
  simp only [List.length_map, List.length_take, List.length_reverse] at hl
  rw [hlen] at hl
  omega

/-- Fifty-one saves with pairwise-distinct svgs, used to witness C4. -/
def demoCalls : List SaveCall :=
  (List.range 51).map fun i => ⟨i, [], List.replicate (i + 1) 'a', []⟩

/-- C4 witness: the bound at a concrete call, and the 51-save session
ending with exactly 50 entries. -/
theorem c4_capacity_witness :
    (saveHistory 0 [] (str "a") [] []).length ≤ 50 ∧
    (runSaves demoCalls []).length = 50 :=
  ⟨c4_capacity.1 0 [] (str "a") [] [] (by decide),
    (c4_capacity.2 demoCalls (by decide) (by decide) (by decide)).1⟩

/-- Any entry of a post-`saveHistory` history was already present or
carries the call's `Date.now()` value as its id. -/
theorem mem_saveHistory (now : Nat) (d sv ov : List Char)
    (hist : List HistoryItem) (e : HistoryItem)
    (he : e ∈ saveHistory now d sv ov hist) : e ∈ hist ∨ e.id = now := by
  simp only [saveHistory] at he
  by_cases h1 : jsTrim sv = []
  · rw [if_pos h1] at he; exact Or.inl he
  rw [if_neg h1] at he
  by_cases h2 : hist.head?.map (·.svg) = some (jsTrim sv)
  · rw [if_pos h2] at he; exact Or.inl he
  rw [if_neg h2] at he
  split at he
  · have hm := (List.dropLast_sublist _).mem he
    rcases List.mem_cons.mp hm with h | h
    · exact Or.inr (by rw [h])
    · exact Or.inl h
  · rcases List.mem_cons.mp he with h | h
    · exact Or.inr (by rw [h])
    · exact Or.inl h

/-- Any entry after a session was in the initial history or has the id of
some call in the session. -/
theorem mem_runSaves (calls : List SaveCall) (hist : List HistoryItem)
    (e : HistoryItem) (he : e ∈ runSaves calls hist) :
    e ∈ hist ∨ ∃ c ∈ calls, e.id = c.now := by
  induction calls generalizing hist with
  | nil => exact Or.inl he
  | cons c cs ih =>
    rw [runSaves_cons] at he
    rcases ih _ he with h | ⟨c', hc', hid⟩
    · rcases mem_saveHistory c.now c.date c.svg c.out hist e h with h' | hid
      · exact Or.inl h'
      · exact Or.inr ⟨c, List.mem_cons_self _ _, hid⟩
    · exact Or.inr ⟨c', List.mem_cons_of_mem _ hc', hid⟩

/-- Ids in a session's history are ordered opposite to the clock order of
the calls, for any relation `r` on clock values. -/
theorem runSaves_ids_pairwise (r : Nat → Nat → Prop) (calls : List SaveCall)
    (hmono : (calls.map (·.now)).Pairwise r) :
    ((runSaves calls []).map (·.id)).Pairwise (fun a b => r b a) := by
  induction calls using List.reverseRecOn with
  | nil => simp [runSaves]
  | append_singleton cs c ih =>
    rw [List.map_append] at hmono
    obtain ⟨hP, -, hcross⟩ := List.pairwise_append.mp hmono
    have ihR := ih hP
    rw [runSaves_concat]
    by_cases h1 : jsTrim c.svg = []
    · simp only [saveHistory]; rw [if_pos h1]; exact ihR
    by_cases h2 : (runSaves cs []).head?.map (·.svg) = some (jsTrim c.svg)
    · simp only [saveHistory]; rw [if_neg h1, if_pos h2]; exact ihR
    simp only [saveHistory]
    rw [if_neg h1, if_neg h2]
    have hcons :
        (({ id := c.now, svg := jsTrim c.svg, code := jsTrim c.out,
            date := c.date } : HistoryItem) :: runSaves cs []).map (·.id)
          |>.Pairwise (fun a b => r b a) := by
      rw [List.map_cons]
      refine List.Pairwise.cons ?_ ihR
      intro b hb
      obtain ⟨e, heR, heid⟩ := List.mem_map.mp hb
      rcases mem_runSaves cs [] e heR with h | ⟨c', hc', hid⟩
      · simp at h
      · rw [← heid, hid]
        exact hcross _ (List.mem_map_of_mem _ hc') _ (by simp)
    split
    · exact hcons.sublist ((List.dropLast_sublist _).map _)
    · exact hcons

/-- C9 counterexample: two inserting calls in the same millisecond (equal
`Date.now()` values) produce two entries with the same id — ids are not
unique per entry. -/
theorem c9_same_millisecond :
    ((saveHistory 5 [] (str "b") []
        (saveHistory 5 [] (str "a") [] [])).map (·.id)) = [5, 5] ∧
    ¬ ((saveHistory 5 [] (str "b") []
        (saveHistory 5 [] (str "a") [] [])).map (·.id)).Nodup := by decide

/-- C9 (amended): each recorded entry's id is the `Date.now()` value of
its call; ids are non-increasing from the head whenever the clock is
non-decreasing across calls, and pairwise distinct only when the clock
strictly increases between calls. -/
theorem c9_ids :
    (∀ (calls : List SaveCall) (e : HistoryItem), e ∈ runSaves calls [] →
      ∃ c ∈ calls, e.id = c.now) ∧
    (∀ calls : List SaveCall, (calls.map (·.now)).Pairwise (· ≤ ·) →
      ((runSaves calls []).map (·.id)).Pairwise (· ≥ ·)) ∧
    (∀ calls : List SaveCall, (calls.map (·.now)).Pairwise (· < ·) →
      ((runSaves calls []).map (·.id)).Nodup) := by
  refine ⟨fun calls e he => ?_, fun calls h => ?_, fun calls h => ?_⟩
  · rcases mem_runSaves calls [] e he with h | h
    · simp at h
    · exact h
  · exact runSaves_ids_pairwise (· ≤ ·) calls h
  · exact (runSaves_ids_pairwise (· < ·) calls h).imp
      fun hab => (Nat.ne_of_lt hab).symm

/-- C9 witness: the id properties at a concrete two-call session with a
strictly increasing clock. -/
theorem c9_ids_witness :
    (∃ c ∈ [(⟨1, [], str "a", []⟩ : SaveCall), ⟨2, [], str "b", []⟩],
      (⟨2, str "b", [], []⟩ : HistoryItem).id = c.now) ∧
    ((runSaves [(⟨1, [], str "a", []⟩ : SaveCall), ⟨2, [], str "b", []⟩] []).map
      (·.id)).Pairwise (· ≥ ·) ∧
    ((runSaves [(⟨1, [], str "a", []⟩ : SaveCall), ⟨2, [], str "b", []⟩] []).map
      (·.id)).Nodup :=
  ⟨c9_ids.1 [⟨1, [], str "a", []⟩, ⟨2, [], str "b", []⟩] ⟨2, str "b", [], []⟩
      (by decide),
    c9_ids.2.1 [⟨1, [], str "a", []⟩, ⟨2, [], str "b", []⟩] (by decide),
    c9_ids.2.2 [⟨1, [], str "a", []⟩, ⟨2, [], str "b", []⟩] (by decide)⟩

/-- The per-character effect of the full encoding: apostrophes become
`%27`, other unreserved characters pass through, everything else is
percent-encoded UTF-8 (this includes `"`, which becomes `%22`). -/
def encFullChar (c : Char) : List Char :=
  if c = apos then str "%27"
  else if unreserved c then [c]
  else ((utf8Bytes c.toNat).map hex2).flatten

theorem replAll_append (c : Char) (sub a b : List Char) :
    replAll c sub (a ++ b) = replAll c sub a ++ replAll c sub b := by
  simp [replAll]

theorem hexDigitU_not_special :
    ∀ m : Nat, m < 16 → hexDigitU m ≠ apos ∧ hexDigitU m ≠ '"' ∧
      jsWs (hexDigitU m) = false ∧ hexVal (hexDigitU m) = some m := by decide

theorem unreserved_facts (c : Char) (h : unreserved c = true) :
    c ≠ apos → c ≠ '"' ∧ c ≠ '%' ∧ jsWs c = false := by
  intro
  simp only [unreserved, Bool.or_eq_true, Bool.and_eq_true, decide_eq_true_eq,
    beq_iff_eq] at h
  refine ⟨?_, ?_, ?_⟩
  · intro hc; rw [hc] at h; simp at h
  · intro hc; rw [hc] at h; simp at h
  · simp only [jsWs, Bool.or_eq_false_iff, Bool.and_eq_false_iff, beq_eq_false_iff_ne,
      ne_eq, decide_eq_false_iff_not, not_le]
    omega

theorem utf8Bytes_lt_256 (n : Nat) (hn : n < 0x110000) :
    ∀ b ∈ utf8Bytes n, b < 256 := by
  intro b hb
  unfold utf8Bytes at hb
  split at hb
  · next h => simp at hb; omega
  split at hb
  · next h => simp at hb; rcases hb with h' | h' <;> omega
  split at hb
  · next h =>
    simp at hb
    rcases hb with h' | h' | h' <;> omega
  · next h h2 =>
    simp at hb
    rcases hb with h' | h' | h' | h' <;> omega

theorem mem_hex2 (b : Nat) (hb : b < 256) :
    ∀ a ∈ hex2 b, a ≠ apos ∧ a ≠ '"' ∧ jsWs a = false := by
  intro a ha
  simp only [hex2, List.mem_cons, List.not_mem_nil, or_false] at ha
  rcases ha with h | h | h
  · subst h; refine ⟨by decide, by decide, by decide⟩
  · subst h
    have := hexDigitU_not_special (b / 16) (by omega)
    exact ⟨this.1, this.2.1, this.2.2.1⟩
  · subst h
    have := hexDigitU_not_special (b % 16) (by omega)
    exact ⟨this.1, this.2.1, this.2.2.1⟩

theorem char_toNat_lt (c : Char) : c.toNat < 0x110000 := by
  have he : c.toNat = c.val.toNat := rfl
  rcases c.valid with h | h <;> omega

/-- Characters of an escaped character's encoding are never apostrophe,
quote, or whitespace. -/
theorem mem_escape_facts (c : Char) :
    ∀ a ∈ ((utf8Bytes c.toNat).map hex2).flatten,
      a ≠ apos ∧ a ≠ '"' ∧ jsWs a = false := by
  intro a ha
  rw [List.mem_flatten] at ha
  obtain ⟨piece, hp, hap⟩ := ha
  rw [List.mem_map] at hp
  obtain ⟨b, hb, rfl⟩ := hp
  exact mem_hex2 b (utf8Bytes_lt_256 _ (char_toNat_lt c) b hb) a hap

/-- Globally replacing a character absent from the string changes nothing. -/
theorem replAll_id (ch : Char) (sub x : List Char) (hx : ∀ a ∈ x, a ≠ ch) :
    replAll ch sub x = x := by
  induction x with
  | nil => rfl
  | cons y ys ihy =>
    have hys := ihy fun a ha => hx a (List.mem_cons_of_mem _ ha)
    simp only [replAll, List.map_cons, List.flatten_cons] at hys ⊢
    rw [if_neg (hx y (List.mem_cons_self _ _)), hys]
    rfl

/-- The source's chained encoding agrees with the per-character view. -/
theorem encodeFull_eq (l : List Char) :
    encodeFull l = (l.map encFullChar).flatten := by
  induction l with
  | nil => rfl
  | cons c rest ih =>
    have hstep : encodeFull (c :: rest) =
        replAll '"' (str "%22") (replAll apos (str "%27") (encodeChar c)) ++
          encodeFull rest := by
      simp only [encodeFull, encodeURIComp, List.map_cons, List.flatten_cons,
        replAll_append]
    rw [hstep, ih, List.map_cons, List.flatten_cons]
    congr 1
    by_cases ha : c = apos
    · subst ha; decide
    · by_cases hu : unreserved c
      · obtain ⟨hq, -, -⟩ := unreserved_facts c hu ha
        have h1 : encodeChar c = [c] := by
          simp only [encodeChar]; rw [if_pos hu]
        have h2 : encFullChar c = [c] := by
          simp only [encFullChar]; rw [if_neg ha, if_pos hu]
        rw [h1, h2]
        rw [replAll_id apos _ _
          (by intro a hx; rw [List.mem_singleton] at hx; rw [hx]; exact ha)]
        exact replAll_id '"' _ _
          (by intro a hx; rw [List.mem_singleton] at hx; rw [hx]; exact hq)
      · have h1 : encodeChar c = ((utf8Bytes c.toNat).map hex2).flatten := by
          simp only [encodeChar]; rw [if_neg hu]
        have h2 : encFullChar c = ((utf8Bytes c.toNat).map hex2).flatten := by
          simp only [encFullChar]; rw [if_neg ha, if_neg hu]
        rw [h1, h2]
        rw [replAll_id apos _ _ fun a hx => (mem_escape_facts c a hx).1]
        exact replAll_id '"' _ _ fun a hx => (mem_escape_facts c a hx).2.1

/-- Every character the full encoding emits is non-whitespace. -/
theorem encodeFull_noWs (l : List Char) :
    ∀ a ∈ encodeFull l, jsWs a = false := by
  intro a ha
  rw [encodeFull_eq, List.mem_flatten] at ha
  obtain ⟨piece, hp, hap⟩ := ha
  rw [List.mem_map] at hp
  obtain ⟨c, hc, rfl⟩ := hp
  by_cases hca : c = apos
  · subst hca
    simp only [encFullChar, if_pos rfl] at hap
    have h3 : a = '%' ∨ a = '2' ∨ a = '7' := by simpa [str] using hap
    rcases h3 with h | h | h <;> (rw [h]; decide)
  · by_cases hu : unreserved c
    · have h2 : encFullChar c = [c] := by
        simp only [encFullChar]; rw [if_neg hca, if_pos hu]
      rw [h2, List.mem_singleton] at hap
      rw [hap]
      exact (unreserved_facts c hu hca).2.2
    · have h2 : encFullChar c = ((utf8Bytes c.toNat).map hex2).flatten := by
        simp only [encFullChar]; rw [if_neg hca, if_neg hu]
      rw [h2] at hap
      exact (mem_escape_facts c a hap).2.2

theorem hexPair_eq (b : Nat) (hb : b < 256) :
    hexPair (hexDigitU (b / 16)) (hexDigitU (b % 16)) = some b := by
  have h1 := (hexDigitU_not_special (b / 16) (by omega)).2.2.2
  have h2 := (hexDigitU_not_special (b % 16) (by omega)).2.2.2
  simp only [hexPair, h1, h2]
  congr 1
  omega

theorem readHexByte_length (l : List Char) (b : Nat) (r : List Char)
    (h : readHexByte l = some (b, r)) : r.length + 3 = l.length := by
  rw [readHexByte.eq_def] at h
  split at h
  · rename_i h1 h2 rest
    split at h
    · injection h with h'
      injection h' with hb hr
      rw [← hr]
      simp
    · cases h
  · cases h

theorem readHexByte_hex2 (b : Nat) (hb : b < 256) (rest : List Char) :
    readHexByte (hex2 b ++ rest) = some (b, rest) := by
  simp only [hex2, List.cons_append, List.nil_append, readHexByte,
    hexPair_eq b hb]

/-- A successful escape decode consumes at least one character. -/
theorem decodeSeq_length (l : List Char) (ch : Char) (r : List Char)
    (h : decodeSeq l = some (ch, r)) : r.length < l.length := by
  unfold decodeSeq at h
  rcases h0 : readHexByte l with - | ⟨b0, r0⟩ <;> rw [h0] at h
  · cases h
  have hl0 := readHexByte_length l b0 r0 h0
  simp only at h
  split_ifs at h with h1 h2 h3 h4 h5
  · injection h with h'
    injection h' with hch hr
    subst hr
    omega
  · rcases hb1 : readHexByte r0 with - | ⟨b1, r1⟩ <;> rw [hb1] at h
    · cases h
    have hl1 := readHexByte_length r0 b1 r1 hb1
    simp only at h
    split_ifs at h with h6 h7
    · injection h with h'
      injection h' with hch hr
      subst hr
      omega
  · rcases hb1 : readHexByte r0 with - | ⟨b1, r1⟩ <;> rw [hb1] at h
    · cases h
    have hl1 := readHexByte_length r0 b1 r1 hb1
    simp only at h
    rcases hb2 : readHexByte r1 with - | ⟨b2, r2⟩ <;> rw [hb2] at h
    · cases h
    have hl2 := readHexByte_length r1 b2 r2 hb2
    simp only at h
    split_ifs at h with h6 h7
    · injection h with h'
      injection h' with hch hr
      subst hr
      omega
  · rcases hb1 : readHexByte r0 with - | ⟨b1, r1⟩ <;> rw [hb1] at h
    · cases h
    have hl1 := readHexByte_length r0 b1 r1 hb1
    simp only at h
    rcases hb2 : readHexByte r1 with - | ⟨b2, r2⟩ <;> rw [hb2] at h
    · cases h
    have hl2 := readHexByte_length r1 b2 r2 hb2
    simp only at h
    rcases hb3 : readHexByte r2 with - | ⟨b3, r3⟩ <;> rw [hb3] at h
    · cases h
    have hl3 := readHexByte_length r2 b3 r3 hb3
    simp only at h
    split_ifs at h with h6 h7
    · injection h with h'
      injection h' with hch hr
      subst hr
      omega

theorem decodeAux_nil (f : Nat) : decodeAux f [] = some [] := by
  cases f <;> rfl

theorem decodeAux_pct (f : Nat) (rest : List Char) :
    decodeAux (f + 1) ('%' :: rest) =
      (match decodeSeq ('%' :: rest) with
      | some (ch, r) => consSome ch (decodeAux f r)
      | none => none) := rfl

theorem decodeAux_cons_ne (f : Nat) (c : Char) (hc : c ≠ '%')
    (rest : List Char) :
    decodeAux (f + 1) (c :: rest) = consSome c (decodeAux f rest) := by
  rw [decodeAux.eq_def]
  split
  · rename_i heq
    cases heq
  · rename_i f' r heq1 heq2
    injection heq2 with e1 _
    exact absurd e1 hc
  · rename_i f' c' r heq1 heq2
    injection heq1 with ef
    injection heq2 with e1 e2
    rw [ef, e1, e2]
  · rename_i heq1 heq2
    cases heq1

/-- Fuel irrelevance: any fuel at least the input length gives the same
answer. -/
theorem decodeAux_congr (f : Nat) : ∀ (g : Nat) (l : List Char),
    l.length ≤ f → l.length ≤ g → decodeAux f l = decodeAux g l := by
  induction f with
  | zero =>
    intro g l hf hg
    have : l = [] := List.eq_nil_of_length_eq_zero (by omega)
    rw [this, decodeAux_nil, decodeAux_nil]
  | succ f ih =>
    intro g l hf hg
    cases l with
    | nil => rw [decodeAux_nil, decodeAux_nil]
    | cons c rest =>
      cases g with
      | zero => simp at hg
      | succ g =>
        by_cases hc : c = '%'
        · subst hc
          rw [decodeAux_pct, decodeAux_pct]
          rcases hseq : decodeSeq ('%' :: rest) with - | ⟨ch, r⟩
          · rfl
          · have hr := decodeSeq_length _ _ _ hseq
            simp only [List.length_cons] at hr hf hg
            simp only [consSome]
            rw [ih g r (by omega) (by omega)]
        · rw [decodeAux_cons_ne f c hc, decodeAux_cons_ne g c hc]
          simp only [List.length_cons] at hf hg
          rw [ih g rest (by omega) (by omega)]

theorem decodeList_nil : decodeList [] = some [] := rfl

/-- Characters other than `%` pass through `decodeURIComponent`. -/
theorem decodeList_cons_ne (c : Char) (hc : c ≠ '%') (rest : List Char) :
    decodeList (c :: rest) = consSome c (decodeList rest) := by
  unfold decodeList
  simp only [List.length_cons]
  rw [decodeAux_cons_ne rest.length c hc]

/-- Decoding consumes one whole escape sequence at a `%`. -/
theorem decodeList_pct (rest : List Char) :
    decodeList ('%' :: rest) =
      (match decodeSeq ('%' :: rest) with
      | some (ch, r) => consSome ch (decodeList r)
      | none => none) := by
  unfold decodeList
  simp only [List.length_cons]
  rw [decodeAux_pct]
  rcases hseq : decodeSeq ('%' :: rest) with - | ⟨ch, r⟩
  · rfl
  · have hr := decodeSeq_length _ _ _ hseq
    simp only [List.length_cons] at hr
    simp only [consSome]
    rw [decodeAux_congr rest.length r.length r (by omega) (by omega)]

theorem isCont_true (b : Nat) (h1 : 0x80 ≤ b) (h2 : b ≤ 0xBF) :
    isCont b = true := by
  simp only [isCont, Bool.and_eq_true, decide_eq_true_eq]
  omega

theorem decodeSeq_esc1 (b0 : Nat) (h : b0 < 0x80) (rest : List Char) :
    decodeSeq (hex2 b0 ++ rest) = some (Char.ofNat b0, rest) := by
  unfold decodeSeq
  simp only [readHexByte_hex2 b0 (by omega)]
  rw [if_pos h]

theorem decodeSeq_esc2 (b0 b1 : Nat) (rest : List Char)
    (h0 : 0xC0 ≤ b0) (h0' : b0 < 0xE0) (h1 : 0x80 ≤ b1) (h1' : b1 ≤ 0xBF)
    (hv : 0x80 ≤ (b0 - 0xC0) * 64 + (b1 - 0x80)) :
    decodeSeq (hex2 b0 ++ (hex2 b1 ++ rest)) =
      some (Char.ofNat ((b0 - 0xC0) * 64 + (b1 - 0x80)), rest) := by
  have e1 : ¬ b0 < 0x80 := by omega
  have e2 : ¬ b0 < 0xC0 := by omega
  unfold decodeSeq
  simp only [readHexByte_hex2 b0 (by omega), readHexByte_hex2 b1 (by omega)]
  rw [if_neg e1, if_neg e2, if_pos h0', if_pos (isCont_true b1 h1 h1'), if_pos hv]

theorem decodeSeq_esc3 (b0 b1 b2 : Nat) (rest : List Char)
    (h0 : 0xE0 ≤ b0) (h0' : b0 < 0xF0)
    (h1 : 0x80 ≤ b1) (h1' : b1 ≤ 0xBF) (h2 : 0x80 ≤ b2) (h2' : b2 ≤ 0xBF)
    (hv : 0x800 ≤ (b0 - 0xE0) * 4096 + (b1 - 0x80) * 64 + (b2 - 0x80) ∧
      ¬(0xD800 ≤ (b0 - 0xE0) * 4096 + (b1 - 0x80) * 64 + (b2 - 0x80) ∧
        (b0 - 0xE0) * 4096 + (b1 - 0x80) * 64 + (b2 - 0x80) ≤ 0xDFFF)) :
    decodeSeq (hex2 b0 ++ (hex2 b1 ++ (hex2 b2 ++ rest))) =
      some (Char.ofNat ((b0 - 0xE0) * 4096 + (b1 - 0x80) * 64 + (b2 - 0x80)),
        rest) := by
  have e1 : ¬ b0 < 0x80 := by omega
  have e2 : ¬ b0 < 0xC0 := by omega
  have e3 : ¬ b0 < 0xE0 := by omega
  have hcc : (isCont b1 && isCont b2) = true := by
    rw [Bool.and_eq_true]
    exact ⟨isCont_true b1 h1 h1', isCont_true b2 h2 h2'⟩
  unfold decodeSeq
  simp only [readHexByte_hex2 b0 (by omega), readHexByte_hex2 b1 (by omega),
    readHexByte_hex2 b2 (by omega)]
  rw [if_neg e1, if_neg e2, if_neg e3, if_pos h0', if_pos hcc, if_pos hv]

theorem decodeSeq_esc4 (b0 b1 b2 b3 : Nat) (rest : List Char)
    (h0 : 0xF0 ≤ b0) (h0' : b0 < 0xF8)
    (h1 : 0x80 ≤ b1) (h1' : b1 ≤ 0xBF) (h2 : 0x80 ≤ b2) (h2' : b2 ≤ 0xBF)
    (h3 : 0x80 ≤ b3) (h3' : b3 ≤ 0xBF)
    (hv : 0x10000 ≤ (b0 - 0xF0) * 0x40000 + (b1 - 0x80) * 4096 +
        (b2 - 0x80) * 64 + (b3 - 0x80) ∧
      (b0 - 0xF0) * 0x40000 + (b1 - 0x80) * 4096 +
        (b2 - 0x80) * 64 + (b3 - 0x80) ≤ 0x10FFFF) :
    decodeSeq (hex2 b0 ++ (hex2 b1 ++ (hex2 b2 ++ (hex2 b3 ++ rest)))) =
      some (Char.ofNat ((b0 - 0xF0) * 0x40000 + (b1 - 0x80) * 4096 +
        (b2 - 0x80) * 64 + (b3 - 0x80)), rest) := by
  have e1 : ¬ b0 < 0x80 := by omega
  have e2 : ¬ b0 < 0xC0 := by omega
  have e3 : ¬ b0 < 0xE0 := by omega
  have e4 : ¬ b0 < 0xF0 := by omega
  have hcc : (isCont b1 && isCont b2 && isCont b3) = true := by
    rw [Bool.and_eq_true, Bool.and_eq_true]
    exact ⟨⟨isCont_true b1 h1 h1', isCont_true b2 h2 h2'⟩, isCont_true b3 h3 h3'⟩
  unfold decodeSeq
  simp only [readHexByte_hex2 b0 (by omega), readHexByte_hex2 b1 (by omega),
    readHexByte_hex2 b2 (by omega), readHexByte_hex2 b3 (by omega)]
  rw [if_neg e1, if_neg e2, if_neg e3, if_neg e4, if_pos h0', if_pos hcc,
    if_pos hv]

/-- A percent escape produced by `hex2` starts with `%`. -/
theorem hex2_append_eq (b : Nat) (rest : List Char) :
    hex2 b ++ rest = '%' :: (hexDigitU (b / 16) :: hexDigitU (b % 16) :: rest) := rfl

/-- Decoding inverts UTF-8 escaping for every valid code point. -/
theorem decodeList_utf8 (n : Nat)
    (hval : n < 0xD800 ∨ (0xDFFF < n ∧ n < 0x110000)) (rest : List Char) :
    decodeList (((utf8Bytes n).map hex2).flatten ++ rest) =
      consSome (Char.ofNat n) (decodeList rest) := by
  by_cases c1 : n < 0x80
  · have hb : utf8Bytes n = [n] := by unfold utf8Bytes; rw [if_pos c1]
    rw [hb]
    simp only [List.map_cons, List.map_nil, List.flatten_cons, List.flatten_nil,
      List.append_nil, List.append_assoc]
    rw [hex2_append_eq, decodeList_pct]
    rw [show ('%' :: (hexDigitU (n / 16) :: hexDigitU (n % 16) :: rest)) =
      hex2 n ++ rest from rfl]
    rw [decodeSeq_esc1 n c1 rest]
  · by_cases c2 : n < 0x800
    · have hb : utf8Bytes n = [0xC0 + n / 64, 0x80 + n % 64] := by
        unfold utf8Bytes; rw [if_neg c1, if_pos c2]
      rw [hb]
      simp only [List.map_cons, List.map_nil, List.flatten_cons, List.flatten_nil,
        List.append_nil, List.append_assoc]
      rw [hex2_append_eq, decodeList_pct]
      rw [show ('%' :: (hexDigitU ((0xC0 + n / 64) / 16) ::
          hexDigitU ((0xC0 + n / 64) % 16) :: (hex2 (0x80 + n % 64) ++ rest))) =
        hex2 (0xC0 + n / 64) ++ (hex2 (0x80 + n % 64) ++ rest) from rfl]
      rw [decodeSeq_esc2 (0xC0 + n / 64) (0x80 + n % 64) rest
        (by omega) (by omega) (by omega) (by omega) (by omega)]
      have harith : (0xC0 + n / 64 - 0xC0) * 64 + (0x80 + n % 64 - 0x80) = n := by
        omega
      rw [harith]
    · by_cases c3 : n < 0x10000
      · have hb : utf8Bytes n =
            [0xE0 + n / 4096, 0x80 + n / 64 % 64, 0x80 + n % 64] := by
          unfold utf8Bytes; rw [if_neg c1, if_neg c2, if_pos c3]
        rw [hb]
        simp only [List.map_cons, List.map_nil, List.flatten_cons,
          List.flatten_nil, List.append_nil, List.append_assoc]
        rw [hex2_append_eq, decodeList_pct]
        rw [show ('%' :: (hexDigitU ((0xE0 + n / 4096) / 16) ::
            hexDigitU ((0xE0 + n / 4096) % 16) ::
            (hex2 (0x80 + n / 64 % 64) ++ (hex2 (0x80 + n % 64) ++ rest)))) =
          hex2 (0xE0 + n / 4096) ++ (hex2 (0x80 + n / 64 % 64) ++
            (hex2 (0x80 + n % 64) ++ rest)) from rfl]
        rw [decodeSeq_esc3 (0xE0 + n / 4096) (0x80 + n / 64 % 64)
          (0x80 + n % 64) rest (by omega) (by omega) (by omega) (by omega)
          (by omega) (by omega) (by constructor <;> omega)]
        have harith : (0xE0 + n / 4096 - 0xE0) * 4096 +
            (0x80 + n / 64 % 64 - 0x80) * 64 + (0x80 + n % 64 - 0x80) = n := by
          omega
        rw [harith]
      · have c4 : n < 0x110000 := by rcases hval with h | h <;> omega
        have hb : utf8Bytes n = [0xF0 + n / 0x40000, 0x80 + n / 4096 % 64,
            0x80 + n / 64 % 64, 0x80 + n % 64] := by
          unfold utf8Bytes; rw [if_neg c1, if_neg c2, if_neg c3]
        rw [hb]
        simp only [List.map_cons, List.map_nil, List.flatten_cons,
          List.flatten_nil, List.append_nil, List.append_assoc]
        rw [hex2_append_eq, decodeList_pct]
        rw [show ('%' :: (hexDigitU ((0xF0 + n / 0x40000) / 16) ::
            hexDigitU ((0xF0 + n / 0x40000) % 16) ::
            (hex2 (0x80 + n / 4096 % 64) ++ (hex2 (0x80 + n / 64 % 64) ++
              (hex2 (0x80 + n % 64) ++ rest))))) =
          hex2 (0xF0 + n / 0x40000) ++ (hex2 (0x80 + n / 4096 % 64) ++
            (hex2 (0x80 + n / 64 % 64) ++ (hex2 (0x80 + n % 64) ++ rest)))
          from rfl]
        rw [decodeSeq_esc4 (0xF0 + n / 0x40000) (0x80 + n / 4096 % 64)
          (0x80 + n / 64 % 64) (0x80 + n % 64) rest (by omega) (by omega)
          (by omega) (by omega) (by omega) (by omega) (by omega) (by omega)
          (by constructor <;> omega)]
        have harith : (0xF0 + n / 0x40000 - 0xF0) * 0x40000 +
            (0x80 + n / 4096 % 64 - 0x80) * 4096 +
            (0x80 + n / 64 % 64 - 0x80) * 64 + (0x80 + n % 64 - 0x80) = n := by
          omega
        rw [harith]

/-- Decoding inverts the full per-character encoding. -/
theorem decodeList_encFullChar (c : Char) (rest : List Char) :
    decodeList (encFullChar c ++ rest) = consSome c (decodeList rest) := by
  by_cases ha : c = apos
  · subst ha
    have h2 : encFullChar apos = str "%27" := by decide
    rw [h2]
    rw [show str "%27" ++ rest = '%' :: ('2' :: '7' :: rest) from rfl]
    rw [decodeList_pct]
    rw [show ('%' :: ('2' :: '7' :: rest)) = hex2 39 ++ rest from rfl]
    rw [decodeSeq_esc1 39 (by omega) rest]
    rfl
  · by_cases hu : unreserved c
    · have h2 : encFullChar c = [c] := by
        simp only [encFullChar]; rw [if_neg ha, if_pos hu]
      rw [h2, List.singleton_append]
      exact decodeList_cons_ne c (unreserved_facts c hu ha).2.1 rest
    · have h2 : encFullChar c = ((utf8Bytes c.toNat).map hex2).flatten := by
        simp only [encFullChar]; rw [if_neg ha, if_neg hu]
      rw [h2, decodeList_utf8 c.toNat c.valid rest, Char.ofNat_toNat]

theorem decodeList_flatten (l rest : List Char) :
    decodeList ((l.map encFullChar).flatten ++ rest) =
      Option.map (l ++ ·) (decodeList rest) := by
  induction l with
  | nil =>
    simp only [List.map_nil, List.flatten_nil, List.nil_append]
    cases decodeList rest <;> rfl
  | cons c cs ih =>
    simp only [List.map_cons, List.flatten_cons, List.append_assoc]
    rw [decodeList_encFullChar c, ih]
    cases decodeList rest <;> rfl

/-- Decoding inverts the source's full encoding. -/
theorem decodeList_encodeFull (l : List Char) :
    decodeList (encodeFull l) = some l := by
  have h := decodeList_flatten l []
  rw [List.append_nil] at h
  rw [encodeFull_eq, h, decodeList_nil]
  simp

theorem jsTrim_of_noWs (l : List Char) (h : ∀ a ∈ l, jsWs a = false) :
    jsTrim l = l := by
  have h1 : ∀ m : List Char, (∀ a ∈ m, jsWs a = false) →
      m.dropWhile jsWs = m := by
    intro m hm
    cases m with
    | nil => rfl
    | cons x xs =>
      rw [List.dropWhile_cons, hm x (List.mem_cons_self _ _)]
      simp
  unfold jsTrim
  rw [h1 l h, h1 l.reverse fun a ha => h a (List.mem_reverse.mp ha)]
  exact List.reverse_reverse l

theorem startsWithL_append_self (p l : List Char) :
    startsWithL p (p ++ l) = true := by
  induction p with
  | nil => rfl
  | cons a as ih => simp [startsWithL, ih]

theorem replaceFirst_append_self (p l : List Char) (hp : p ≠ []) :
    replaceFirst p (p ++ l) = l := by
  cases p with
  | nil => exact absurd rfl hp
  | cons a as =>
    have hs : startsWithL (a :: as) (a :: (as ++ l)) = true :=
      startsWithL_append_self (a :: as) l
    show replaceFirst (a :: as) (a :: (as ++ l)) = l
    simp only [replaceFirst]
    rw [if_pos hs]
    exact List.drop_left (a :: as) l

theorem not_link_of_data (l : List Char) :
    startsWithL linkHead (dataHead ++ l) = false := by
  rw [show dataHead ++ l = 'd' :: (str "ata:image/svg+xml," ++ l) from rfl]
  rw [show linkHead = '<' :: str "link" from rfl]
  simp [startsWithL]

/-- A canonical string in the sense of C2: already trimmed, free of line
breaks, and a fixed point of whitespace collapapsing (each whitespace
character is a single space with non-whitespace neighbours). -/
def isCanonical (l : List Char) : Prop :=
  jsTrim l = l ∧ removeLineBreaks l = l ∧ collapseWs l = l

instance (l : List Char) : Decidable (isCanonical l) := by
  unfold isCanonical
  infer_instance

/-- C2: the encode/decode pair is a true round trip: feeding
`data:image/svg+xml,` followed by the source's percent-encoding of a
canonical string back into `processInput` recovers exactly that string as
the canonical source. -/
theorem c2_round_trip (c : List Char) (hc : isCanonical c) :
    canonOf (processInput (dataHead ++ encodeFull c)) = some c := by
  have hnws : ∀ a ∈ dataHead ++ encodeFull c, jsWs a = false := by
    intro a ha
    rcases List.mem_append.mp ha with h | h
    · exact (by decide : ∀ x ∈ dataHead, jsWs x = false) a h
    · exact encodeFull_noWs c a h
  have htrim : jsTrim (dataHead ++ encodeFull c) = dataHead ++ encodeFull c :=
    jsTrim_of_noWs _ hnws
  have hne : dataHead ++ encodeFull c ≠ [] := by
    rw [show dataHead ++ encodeFull c =
      'd' :: (str "ata:image/svg+xml," ++ encodeFull c) from rfl]
    exact List.cons_ne_nil _ _
  have hlink : ¬ startsWithL linkHead (dataHead ++ encodeFull c) = true := by
    rw [not_link_of_data]
    simp
  have hstart : startsWithL dataHead (dataHead ++ encodeFull c) = true :=
    startsWithL_append_self _ _
  have hdne : dataHead ≠ [] := by
    rw [show dataHead = 'd' :: str "ata:image/svg+xml," from rfl]
    exact List.cons_ne_nil _ _
  simp only [processInput]
  rw [htrim, if_neg hne]
  unfold linkStep
  rw [if_neg hlink]
  unfold processRaw
  rw [if_pos hstart]
  rw [replaceFirst_append_self dataHead (encodeFull c) hdne]
  rw [decodeList_encodeFull c]
  simp only [canonOf, buildOut]
  rw [hc.2.1, hc.2.2]

/-- C2 witness: the round trip at a concrete canonical string containing
a space and double quotes. -/
theorem c2_round_trip_witness :
    isCanonical (str "<a b=\"c\"/>") ∧
    canonOf (processInput (dataHead ++ encodeFull (str "<a b=\"c\"/>"))) =
      some (str "<a b=\"c\"/>") :=
  ⟨by decide, c2_round_trip (str "<a b=\"c\"/>") (by decide)⟩

end SvgFavicon
